import Mathlib

/-!
Verification of the conversation analytics engine of the customer-service
analyzer (`sentiment_utils.py`, `app.py`).

Texts are modelled as `List Char` (Python `str`); `None`-able text parameters
as `Option (List Char)`.  Float arithmetic is modelled exactly over `ℚ`.
The external VADER polarity scorer is an abstract parameter
`scorer : List Char → Scores`, per the spec it is an external capability with
only an input/output contract.  Python's ASCII-range `str.lower`,
`str.isupper`, `\w` word characters and `\s` whitespace are modelled with
Lean's ASCII `Char` predicates.
-/

/-- Sentiment label, the three values produced by the classifier. -/
inductive Label
  | Positive
  | Neutral
  | Negative
deriving DecidableEq

/-- Output of the external polarity scorer: `{neg, neu, pos, compound}`. -/
structure Scores where
  neg : ℚ
  neu : ℚ
  pos : ℚ
  compound : ℚ
deriving DecidableEq

/-- Result of `score_message`: the scorer fields plus the discrete label
(Python returns the scores dict extended with a `label` key). -/
structure ScoredMessage where
  neg : ℚ
  neu : ℚ
  pos : ℚ
  compound : ℚ
  label : Label
deriving DecidableEq

/-- Whether `p` is an initial segment of `l` (character-wise). -/
def listStartsWith : List Char → List Char → Bool
  | _, [] => true
  | [], _ :: _ => false
  | c :: cs, p :: ps => c = p && listStartsWith cs ps

/-- Python's substring test `pat in hay`: `pat` occurs contiguously in `hay`. -/
def containsSub : List Char → List Char → Bool
  | [], pat => pat.isEmpty
  | hay@(_ :: t), pat => listStartsWith hay pat || containsSub t pat

/-- Python `str.lower()` (ASCII range). -/
def lowerL (t : List Char) : List Char := t.map Char.toLower

/-- The apostrophe character, U+0027. -/
def apos : Char := Char.ofNat 39

/-- The `_NEUTRAL_PHRASES` list from `sentiment_utils.py`. -/
def _NEUTRAL_PHRASES : List (List Char) :=
  [ "not bad".data
  , "ok".data
  , "okay".data
  , "its ok".data
  , "it".data ++ apos :: "s ok".data
  , "its fine".data
  , "it".data ++ apos :: "s fine".data
  , "fine".data
  , "average".data
  , "not negative".data ]

/-- Model of `score_message(text)` from `sentiment_utils.py`.  `None` is replaced by
the empty string; the scorer is consulted; if the lowercased text contains a
neutral phrase the compound is forced to `0.0` and the label to `Neutral`
(the for-loop returns at the first matching phrase, which always yields this
same result, hence the `any`); otherwise the fixed ±0.05 thresholds apply. -/
def score_message (scorer : List Char → Scores) (text : Option (List Char)) :
    ScoredMessage :=
  let t := text.getD []
  let scores := scorer t
  let compound := scores.compound
  let lower_text := lowerL t
  if _NEUTRAL_PHRASES.any (fun phrase => containsSub lower_text phrase) then
    ⟨scores.neg, scores.neu, scores.pos, 0, Label.Neutral⟩
  else
    let label : Label :=
      if (1 : ℚ)/20 ≤ compound then Label.Positive
      else if compound ≤ -((1 : ℚ)/20) then Label.Negative
      else Label.Neutral
    ⟨scores.neg, scores.neu, scores.pos, compound, label⟩

/-- Model of `conversation_overall(compound_scores)` from `sentiment_utils.py`. -/
def conversation_overall (compound_scores : List ℚ) : ℚ × Label :=
  if compound_scores = [] then (0, Label.Neutral)
  else
    let avg := compound_scores.sum / (compound_scores.length : ℚ)
    let label : Label :=
      if (1 : ℚ)/20 ≤ avg then Label.Positive
      else if avg ≤ -((1 : ℚ)/20) then Label.Negative
      else Label.Neutral
    (avg, label)

/-- The threshold rule of §4.1 step 3, written once, spec-side, to compare
both classifiers against. -/
def threshLabel (q : ℚ) : Label :=
  if (1 : ℚ)/20 ≤ q then Label.Positive
  else if q ≤ -((1 : ℚ)/20) then Label.Negative
  else Label.Neutral

/-- Whether the lowercased text triggers the neutral-phrase override. -/
def neutralHit (t : List Char) : Bool :=
  _NEUTRAL_PHRASES.any (fun phrase => containsSub (lowerL t) phrase)

/-- A trivial concrete polarity scorer used for witnesses: all fields zero. -/
def zeroScorer : List Char → Scores := fun _ => ⟨0, 0, 0, 0⟩

/-- The scan of `detect_escalation`: walk the labels keeping the count of
consecutive `Negative` labels seen, returning `true` as soon as the count
reaches `window` (the check happens right after the increment, as in the
Python loop). -/
def escalationGo (window : ℕ) : List Label → ℕ → Bool
  | [], _ => false
  | lab :: rest, consecutive =>
    if lab = Label.Negative then
      if window ≤ consecutive + 1 then true
      else escalationGo window rest (consecutive + 1)
    else escalationGo window rest 0

/-- Model of `detect_escalation(labels, window)` from `sentiment_utils.py`
(Python default `window=3`; the parameter is passed explicitly here). -/
def detect_escalation (labels : List Label) (window : ℕ) : Bool :=
  escalationGo window labels 0

/-- The spec-side notion of containing at least `w` consecutive `Negative`
labels: some contiguous block of `w` Negatives occurs in the list. -/
def hasNegRun (labels : List Label) (w : ℕ) : Prop :=
  ∃ l₁ l₂ : List Label, labels = l₁ ++ List.replicate w Label.Negative ++ l₂

/-- Intent tags; `agent` is the tag given to agent-role messages in
`app.py`. -/
inductive Intent
  | billing
  | refund
  | delivery
  | technical
  | account
  | other
  | agent
deriving DecidableEq

/-- Keyword lists of `_INTENT_KEYWORDS` from `sentiment_utils.py`,
in dict insertion order. -/
def billingKW : List (List Char) :=
  ["bill".data, "billing".data, "charge".data, "charged".data,
   "invoice".data, "payment".data]

/-- Keywords of the `refund` intent. -/
def refundKW : List (List Char) :=
  ["refund".data, "refunds".data, "return".data, "money back".data,
   "replace".data, "exchange".data]

/-- Keywords of the `delivery` intent. -/
def deliveryKW : List (List Char) :=
  ["delivery".data, "delivered".data, "shipping".data, "courier".data,
   "track".data, "tracking".data, "late".data]

/-- Keywords of the `technical` intent. -/
def technicalKW : List (List Char) :=
  ["broken".data, "not working".data, "error".data, "bug".data,
   "crash".data, "slow".data, "issue".data]

/-- Keywords of the `account` intent. -/
def accountKW : List (List Char) :=
  ["login".data, "password".data, "account".data, "profile".data,
   "signup".data, "sign up".data]

/-- Whether any keyword of the list occurs in the lowercased text. -/
def kwHit (kws : List (List Char)) (t : List Char) : Bool :=
  kws.any (fun kw => containsSub (lowerL t) kw)

/-- Model of `detect_intent(text)` from `sentiment_utils.py`.  The Python for-loop
over the ordered dict, returning at the first keyword hit, is unrolled into
the corresponding if-chain (dict insertion order: billing, refund, delivery,
technical, account). -/
def detect_intent (text : Option (List Char)) : Intent :=
  match text with
  | none => Intent.other
  | some t =>
    if t = [] then Intent.other
    else if kwHit billingKW t then Intent.billing
    else if kwHit refundKW t then Intent.refund
    else if kwHit deliveryKW t then Intent.delivery
    else if kwHit technicalKW t then Intent.technical
    else if kwHit accountKW t then Intent.account
    else Intent.other

/-- The `_URGENT_WORDS` list from `sentiment_utils.py`. -/
def _URGENT_WORDS : List (List Char) :=
  ["urgent".data, "asap".data, "immediately".data, "right now".data,
   "soon".data, "please help".data, "help me".data]

/-- Python regex `\w` word character (ASCII range): alphanumeric or
underscore. -/
def isWordChar (c : Char) : Bool := c.isAlphanum || c = '_'

/-- Accumulator-based splitter behind `findWords`, collecting maximal runs
of word characters (`cur` holds the current run reversed). -/
def wordsAux : List Char → List Char → List (List Char)
  | [], cur => if cur = [] then [] else [cur.reverse]
  | c :: rest, cur =>
    if isWordChar c then wordsAux rest (c :: cur)
    else if cur = [] then wordsAux rest []
    else cur.reverse :: wordsAux rest []

/-- Python `re.findall(r"\w+", text)`: the maximal runs of word
characters, in order. -/
def findWords (t : List Char) : List (List Char) := wordsAux t []

/-- Python `str.isupper()`: at least one cased character and no lowercase
cased character (ASCII range). -/
def pyIsUpper (w : List Char) : Bool :=
  w.any (fun c => c.isUpper || c.isLower) && w.all (fun c => !c.isLower)

/-- The urgent-word component of `urgency_score`: the Python loop adds
`0.4` for each list entry found in the lowercased text. -/
def urgentWordScore (t : List Char) : ℚ :=
  _URGENT_WORDS.foldl
    (fun score word =>
      if containsSub (lowerL t) word then score + 2/5 else score) 0

/-- Model of `urgency_score(text)` from `sentiment_utils.py`. -/
def urgency_score (text : Option (List Char)) : ℚ :=
  let t := text.getD []
  if t = [] then 0
  else
    let kws := urgentWordScore t
    let exclaims := (t.filter (fun c => c = '!')).length
    let exScore : ℚ := min (1/5) ((1/20) * (exclaims : ℚ))
    let words := findWords t
    let capsScore : ℚ :=
      if words = [] then 0
      else
        min (2/5)
          (((words.filter pyIsUpper).length : ℚ) / (words.length : ℚ))
    max 0 (min 1 (kws + exScore + capsScore))

/-- One entry of the sentence-level breakdown:
`{sentence, compound, label}`. -/
structure SentRec where
  sentence : List Char
  compound : ℚ
  label : Label
deriving DecidableEq

/-- Python `\s` whitespace (ASCII range). -/
def pySpace (c : Char) : Bool := c.isWhitespace

/-- Python `str.strip()`: drop leading and trailing whitespace. -/
def pyStrip (t : List Char) : List Char :=
  ((t.dropWhile pySpace).reverse.dropWhile pySpace).reverse

/-- Whether a character ends a sentence (`.`, `!` or `?`). -/
def isSentEnd (c : Char) : Bool := c = '.' || c = '!' || c = '?'

-- Scanner behind `splitSentences`, modelling
-- `re.split(r"(?<=[.!?])\s+", text)`: whenever a whitespace character is
-- preceded by a sentence-ending character, the maximal whitespace run is
-- consumed as a delimiter and a fragment boundary is emitted.
mutual

/-- Scanning state while inside a fragment (`cur` reversed so far). -/
def sentAux : List Char → List Char → List (List Char)
  | [], cur => [cur.reverse]
  | c :: rest, cur =>
    if pySpace c && (match cur with | p :: _ => isSentEnd p | [] => false) then
      cur.reverse :: sentSkip rest
    else sentAux rest (c :: cur)

/-- Scanning state while consuming the maximal whitespace run of a
delimiter match; the first non-whitespace character starts the next
fragment. -/
def sentSkip : List Char → List (List Char)
  | [] => [[]]
  | c :: rest => if pySpace c then sentSkip rest else sentAux rest [c]

end

/-- The sentence splitter of `sentence_level_scores`:
`re.split(r"(?<=[.!?])\s+", text.strip())`. -/
def splitSentences (t : List Char) : List (List Char) :=
  sentAux (pyStrip t) []

/-- Model of `sentence_level_scores(text)` from `sentiment_utils.py`: split the
stripped text into sentences, skip empty fragments, and score each sentence
with `score_message`. -/
def sentence_level_scores (scorer : List Char → Scores)
    (text : Option (List Char)) : List SentRec :=
  let t := text.getD []
  if t = [] then []
  else
    ((splitSentences t).filter (fun s => ¬ s = [])).map fun s =>
      let sc := score_message scorer (some s)
      ⟨s, sc.compound, sc.label⟩

/-- Python `min(sents, key=...)` over compounds: walk the list keeping the
current best, replacing it only on a strictly smaller key, so the first
minimal element wins. -/
def argminCompound (best : SentRec) : List SentRec → SentRec
  | [] => best
  | x :: rest =>
    argminCompound (if x.compound < best.compound then x else best) rest

/-- Model of `worst_sentence(text)` from `sentiment_utils.py`. -/
def worst_sentence (scorer : List Char → Scores)
    (text : Option (List Char)) : SentRec :=
  match sentence_level_scores scorer text with
  | [] => ⟨[], 0, Label.Neutral⟩
  | s :: rest => argminCompound s rest

/-- A conversation message record as built by `make_message` in `app.py`
(the dict keys as fields; `idStr`/`timestamp` are the opaque id and
creation-time strings). -/
structure Msg where
  idStr : List Char
  timestamp : List Char
  role : List Char
  text : List Char
  score : ℚ
  label : Label
  intent : Intent
  urgency : ℚ
  worstSent : List Char
deriving DecidableEq

/-- Ordering of messages by `score`, the sort key of
`top_negative_messages`. -/
def scoreLE (a b : Msg) : Prop := a.score ≤ b.score

instance : DecidableRel scoreLE := fun a b => inferInstanceAs (Decidable (a.score ≤ b.score))

instance : IsTotal Msg scoreLE := ⟨fun a b => le_total a.score b.score⟩

instance : IsTrans Msg scoreLE := ⟨fun _ _ _ h h' => le_trans h h'⟩

/-- Model of `top_negative_messages(conversation, top_k)` from `sentiment_utils.py`:
filter to user-role messages, sort ascending by score, take the first
`top_k`.  Python's `sorted` is a stable sort; it is modelled by the stable
`List.insertionSort` (any two stable sorts on the same key agree).
Python default `top_k=3`; the parameter is passed explicitly here. -/
def top_negative_messages (conversation : List Msg) (top_k : ℕ) : List Msg :=
  let user_msgs := conversation.filter (fun m => m.role = "user".data)
  let sorted_msgs := List.insertionSort scoreLE user_msgs
  sorted_msgs.take top_k

/-- Rounding to the nearest integer, ties to even, over `ℚ` — the rounding
used by CPython both for `round(x, n)` and for fixed-point float
formatting. -/
def halfEvenRound (q : ℚ) : ℤ :=
  let f := ⌊q⌋
  let r := q - f
  if r < 1/2 then f
  else if 1/2 < r then f + 1
  else if f % 2 = 0 then f else f + 1

/-- Python `round(x, 2)` modelled over `ℚ`. -/
def round2 (q : ℚ) : ℚ := (halfEvenRound (q * 100) : ℚ) / 100

/-- Decimal digits of a natural number, most significant first. -/
def natDigits (n : ℕ) : List Char := Nat.toDigits 10 n

/-- Python `f"{x:.3f}"` modelled over `ℚ`: sign, integer part, and the
three-digit zero-padded fractional part after half-even rounding at the
third decimal. -/
def fmt3 (q : ℚ) : List Char :=
  let n := halfEvenRound (q * 1000)
  let a := n.natAbs
  let ds := natDigits (a % 1000)
  (if q < 0 then "-".data else []) ++
    natDigits (a / 1000) ++ ".".data ++
    (List.replicate (3 - ds.length) '0' ++ ds)

/-- Rendering of a label, as the Python string literals. -/
def labelChars : Label → List Char
  | Label.Positive => "Positive".data
  | Label.Neutral => "Neutral".data
  | Label.Negative => "Negative".data

/-- The numbered lines of the top-negative block of the report:
`f"{i}. \"{m['text']}\" (score = {m['score']:.3f})"` for `i = 1, 2, ...`. -/
def negLines (i : ℕ) : List Msg → List (List Char)
  | [] => []
  | m :: rest =>
    (natDigits i ++ ". \"".data ++ m.text ++ "\" (score = ".data ++
      fmt3 m.score ++ ")".data) :: negLines (i + 1) rest

/-- Model of `generate_text_report(conversation)` from `sentiment_utils.py`: the
fixed header and count lines, the overall-sentiment line, a blank line, and
either the ranked top-negative block or the placeholder line, joined with
newlines. -/
def generate_text_report (conversation : List Msg) : List Char :=
  let user_scores :=
    (conversation.filter (fun m => m.role = "user".data)).map (fun m => m.score)
  let p := conversation_overall user_scores
  let headLines : List (List Char) :=
    [ "Conversation Summary".data
    , "====================".data
    , "Total messages: ".data ++ natDigits conversation.length
    , "User messages: ".data ++
        natDigits (conversation.filter (fun m => m.role = "user".data)).length
    , "Overall sentiment: ".data ++ labelChars p.2 ++
        " (average compound = ".data ++ fmt3 p.1 ++ ")".data
    , [] ]
  let worst_msgs := top_negative_messages conversation 3
  let tailLines : List (List Char) :=
    if worst_msgs = [] then ["No user messages to highlight.".data]
    else "Top negative user messages:".data :: negLines 1 worst_msgs
  List.intercalate "\n".data (headLines ++ tailLines)

/-- Formatting of the report from the aggregator outputs alone (total
message count, user message count, `conversation_overall` result, the
`top_negative_messages` list) — the spec-side statement that the report is
pure formatting over §4.5's functions. -/
def reportFromParts (total userCount : ℕ) (overall : ℚ × Label)
    (worst : List Msg) : List Char :=
  let headLines : List (List Char) :=
    [ "Conversation Summary".data
    , "====================".data
    , "Total messages: ".data ++ natDigits total
    , "User messages: ".data ++ natDigits userCount
    , "Overall sentiment: ".data ++ labelChars overall.2 ++
        " (average compound = ".data ++ fmt3 overall.1 ++ ")".data
    , [] ]
  let tailLines : List (List Char) :=
    if worst = [] then ["No user messages to highlight.".data]
    else "Top negative user messages:".data :: negLines 1 worst
  List.intercalate "\n".data (headLines ++ tailLines)

/-- Model of `make_message(role, text, score, label)` from `app.py`.  The opaque
`uuid`/`datetime` values are parameters (`idStr`, `ts`); user-role messages
get `intent`, the two-decimal rounded urgency, and the worst sentence;
agent-role messages get the fixed `agent`/`0.0`/empty values. -/
def make_message (scorer : List Char → Scores) (idStr ts : List Char)
    (role : List Char) (text : List Char) (score : ℚ) (label : Label) : Msg :=
  if role = "user".data then
    ⟨idStr, ts, role, text, score, label,
      detect_intent (some text),
      round2 (urgency_score (some text)),
      (worst_sentence scorer (some text)).sentence⟩
  else
    ⟨idStr, ts, role, text, score, label, Intent.agent, 0, []⟩

/-- Example messages for the `top_negative_messages` acceptance test:
user scores `[0.5, -0.9, -0.2, -0.9]`. -/
def exMsgA : Msg := ⟨"a".data, [], "user".data, "msg a".data, 1/2,
  Label.Positive, Intent.other, 0, []⟩

/-- Second example message, score `-0.9`. -/
def exMsgB : Msg := ⟨"b".data, [], "user".data, "msg b".data, -(9/10),
  Label.Negative, Intent.other, 0, []⟩

/-- Third example message, score `-0.2`. -/
def exMsgC : Msg := ⟨"c".data, [], "user".data, "msg c".data, -(1/5),
  Label.Negative, Intent.other, 0, []⟩

/-- Fourth example message, score `-0.9`. -/
def exMsgD : Msg := ⟨"d".data, [], "user".data, "msg d".data, -(9/10),
  Label.Negative, Intent.other, 0, []⟩


/-! Helper lemmas. -/

/-- Unfolding of `score_message` on a present text: the neutral-phrase
override forces compound `0` and `Neutral`, otherwise the scorer's compound
is kept and thresholded. -/
theorem score_message_eq (scorer : List Char → Scores) (t : List Char) :
    score_message scorer (some t) =
      if neutralHit t then
        ⟨(scorer t).neg, (scorer t).neu, (scorer t).pos, 0, Label.Neutral⟩
      else
        ⟨(scorer t).neg, (scorer t).neu, (scorer t).pos, (scorer t).compound,
          threshLabel (scorer t).compound⟩ := rfl

/-- The three threshold iffs for `threshLabel`. -/
theorem threshLabel_iff (c : ℚ) :
    (threshLabel c = Label.Positive ↔ (1 : ℚ)/20 ≤ c) ∧
    (threshLabel c = Label.Negative ↔ c ≤ -((1 : ℚ)/20)) ∧
    (threshLabel c = Label.Neutral ↔ ¬ (1 : ℚ)/20 ≤ c ∧ ¬ c ≤ -((1 : ℚ)/20)) := by
  unfold threshLabel
  by_cases h1 : (1 : ℚ)/20 ≤ c
  · have h2 : ¬ c ≤ -((1 : ℚ)/20) := by linarith
    rw [if_pos h1]
    exact ⟨iff_of_true rfl h1,
      iff_of_false (by intro h; cases h) h2,
      iff_of_false (by intro h; cases h) (fun h => h.1 h1)⟩
  · rw [if_neg h1]
    by_cases h2 : c ≤ -((1 : ℚ)/20)
    · rw [if_pos h2]
      exact ⟨iff_of_false (by intro h; cases h) h1,
        iff_of_true rfl h2,
        iff_of_false (by intro h; cases h) (fun h => h.2 h2)⟩
    · rw [if_neg h2]
      exact ⟨iff_of_false (by intro h; cases h) h1,
        iff_of_false (by intro h; cases h) h2,
        iff_of_true rfl ⟨h1, h2⟩⟩

/-- Unfolding of `score_message` when a neutral phrase is present. -/
theorem score_message_of_neutral (scorer : List Char → Scores)
    {t : List Char} (h : neutralHit t = true) :
    score_message scorer (some t) =
      ⟨(scorer t).neg, (scorer t).neu, (scorer t).pos, 0, Label.Neutral⟩ := by
  rw [score_message_eq, h]
  simp

/-- Unfolding of `score_message` when no neutral phrase is present. -/
theorem score_message_of_not_neutral (scorer : List Char → Scores)
    {t : List Char} (h : neutralHit t = false) :
    score_message scorer (some t) =
      ⟨(scorer t).neg, (scorer t).neu, (scorer t).pos, (scorer t).compound,
        threshLabel (scorer t).compound⟩ := by
  rw [score_message_eq, h]
  simp

/-! Claim theorems. -/

/-- C1: `score_message` always yields a label among Positive, Neutral and
Negative; `None` is treated as the empty string; when the scorer gives the
empty string compound `0.0`, empty input yields compound `0.0` and label
`Neutral`; a neutral-phrase substring hit in the lowercased text forces
compound `0.0` and label `Neutral` regardless of the scorer; otherwise the
scorer's compound is kept and the label is Positive iff it is `≥ 0.05`,
Negative iff it is `≤ -0.05`, and Neutral otherwise. -/
theorem C1_score_message_contract (scorer : List Char → Scores) (t : List Char) :
    ((score_message scorer (some t)).label = Label.Positive ∨
     (score_message scorer (some t)).label = Label.Neutral ∨
     (score_message scorer (some t)).label = Label.Negative) ∧
    score_message scorer none = score_message scorer (some []) ∧
    ((scorer []).compound = 0 →
      (score_message scorer none).compound = 0 ∧
      (score_message scorer none).label = Label.Neutral) ∧
    (neutralHit t = true →
      (score_message scorer (some t)).compound = 0 ∧
      (score_message scorer (some t)).label = Label.Neutral) ∧
    (neutralHit t = false →
      (score_message scorer (some t)).compound = (scorer t).compound ∧
      ((score_message scorer (some t)).label = Label.Positive ↔
        (1 : ℚ)/20 ≤ (scorer t).compound) ∧
      ((score_message scorer (some t)).label = Label.Negative ↔
        (scorer t).compound ≤ -((1 : ℚ)/20)) ∧
      ((score_message scorer (some t)).label = Label.Neutral ↔
        ¬ (1 : ℚ)/20 ≤ (scorer t).compound ∧
        ¬ (scorer t).compound ≤ -((1 : ℚ)/20))) := by
  refine ⟨?_, rfl, ?_, ?_, ?_⟩
  · cases h : (score_message scorer (some t)).label
    · exact Or.inl rfl
    · exact Or.inr (Or.inl rfl)
    · exact Or.inr (Or.inr rfl)
  · intro h0
    have he : score_message scorer none = score_message scorer (some []) := rfl
    have hn : neutralHit ([] : List Char) = false := rfl
    rw [he, score_message_of_not_neutral scorer hn, h0]
    exact ⟨rfl, by norm_num [threshLabel]⟩
  · intro h
    rw [score_message_of_neutral scorer h]
    exact ⟨rfl, rfl⟩
  · intro h
    rw [score_message_of_not_neutral scorer h]
    exact ⟨rfl, (threshLabel_iff (scorer t).compound).1,
      (threshLabel_iff (scorer t).compound).2.1,
      (threshLabel_iff (scorer t).compound).2.2⟩

/-- Witness for C1 at concrete inputs: the all-zero scorer, the text
`"okay-ish"` (neutral-phrase hit inside a longer word) and the text
`"great"` (no neutral phrase). -/
theorem C1_witness :
    ((score_message zeroScorer none).compound = 0 ∧
      (score_message zeroScorer none).label = Label.Neutral) ∧
    ((score_message zeroScorer (some "okay-ish".data)).compound = 0 ∧
      (score_message zeroScorer (some "okay-ish".data)).label = Label.Neutral) ∧
    ((score_message zeroScorer (some "great".data)).label = Label.Positive ↔
      (1 : ℚ)/20 ≤ (zeroScorer "great".data).compound) := by
  have h1 := C1_score_message_contract zeroScorer "okay-ish".data
  have h2 := C1_score_message_contract zeroScorer "great".data
  exact ⟨h1.2.2.1 rfl, h1.2.2.2.1 (by decide), (h2.2.2.2.2 (by decide)).2.1⟩

/-- C3: `conversation_overall` maps the empty list to `(0.0, Neutral)`, any
non-empty list to its arithmetic mean labelled by the ±0.05 threshold rule,
and `[0.4, -0.6, -0.8]` to `(-1/3, Negative)`. -/
theorem C3_conversation_overall_spec (scores : List ℚ) (h : scores ≠ []) :
    conversation_overall [] = (0, Label.Neutral) ∧
    conversation_overall scores =
      (scores.sum / (scores.length : ℚ),
        threshLabel (scores.sum / (scores.length : ℚ))) ∧
    conversation_overall [2/5, -(3/5), -(4/5)] = (-(1/3), Label.Negative) := by
  refine ⟨rfl, ?_, by with_unfolding_all decide⟩
  unfold conversation_overall
  rw [if_neg h]
  rfl

/-- Witness for C3 at the concrete score list `[0.4, -0.6, -0.8]`. -/
theorem C3_witness :
    conversation_overall [2/5, -(3/5), -(4/5)] =
      (([2/5, -(3/5), -(4/5)] : List ℚ).sum /
          ((([2/5, -(3/5), -(4/5)] : List ℚ).length : ℕ) : ℚ),
        threshLabel (([2/5, -(3/5), -(4/5)] : List ℚ).sum /
          ((([2/5, -(3/5), -(4/5)] : List ℚ).length : ℕ) : ℚ))) :=
  (C3_conversation_overall_spec [2/5, -(3/5), -(4/5)] (by simp)).2.1

/-- C5: `detect_intent` maps empty or missing text to `other`; otherwise the
first intent in the fixed order billing, refund, delivery, technical,
account with a keyword substring hit in the lowercased text wins, and
`other` is returned exactly when no keyword of any category matches. -/
theorem C5_detect_intent_spec (t : List Char) :
    detect_intent none = Intent.other ∧
    detect_intent (some []) = Intent.other ∧
    (detect_intent (some t) = Intent.billing ↔ kwHit billingKW t = true) ∧
    (detect_intent (some t) = Intent.refund ↔
      kwHit billingKW t = false ∧ kwHit refundKW t = true) ∧
    (detect_intent (some t) = Intent.delivery ↔
      kwHit billingKW t = false ∧ kwHit refundKW t = false ∧
      kwHit deliveryKW t = true) ∧
    (detect_intent (some t) = Intent.technical ↔
      kwHit billingKW t = false ∧ kwHit refundKW t = false ∧
      kwHit deliveryKW t = false ∧ kwHit technicalKW t = true) ∧
    (detect_intent (some t) = Intent.account ↔
      kwHit billingKW t = false ∧ kwHit refundKW t = false ∧
      kwHit deliveryKW t = false ∧ kwHit technicalKW t = false ∧
      kwHit accountKW t = true) ∧
    (detect_intent (some t) = Intent.other ↔
      kwHit billingKW t = false ∧ kwHit refundKW t = false ∧
      kwHit deliveryKW t = false ∧ kwHit technicalKW t = false ∧
      kwHit accountKW t = false) := by
  by_cases h0 : t = []
  · subst h0
    decide
  · cases hB : kwHit billingKW t <;> cases hR : kwHit refundKW t <;>
      cases hD : kwHit deliveryKW t <;> cases hT : kwHit technicalKW t <;>
      cases hA : kwHit accountKW t <;>
      simp [detect_intent, h0, hB, hR, hD, hT, hA]

/-- The urgent-word fold equals `0.4` times the number of matched
keywords. -/
theorem urgentWordScore_aux (t : List Char) (kws : List (List Char)) :
    ∀ a : ℚ,
      kws.foldl
          (fun score word =>
            if containsSub (lowerL t) word then score + 2/5 else score) a =
        a + (2/5) * ((kws.filter (fun w => containsSub (lowerL t) w)).length : ℚ) := by
  induction kws with
  | nil => intro a; simp
  | cons w ws ih =>
    intro a
    by_cases h : containsSub (lowerL t) w = true
    · simp only [List.foldl_cons, List.filter_cons, h, if_true, ih,
        List.length_cons]
      push_cast
      ring
    · simp only [List.foldl_cons, List.filter_cons, h, if_false, ih,
        Bool.false_eq_true]

/-- The urgent-word fold in closed form. -/
theorem urgentWordScore_eq (t : List Char) :
    urgentWordScore t =
      (2/5) * ((_URGENT_WORDS.filter (fun w => containsSub (lowerL t) w)).length : ℚ) := by
  have h := urgentWordScore_aux t _URGENT_WORDS 0
  simpa [urgentWordScore] using h

/-- Urgency is never negative. -/
theorem urgency_score_nonneg (text : Option (List Char)) :
    0 ≤ urgency_score text := by
  simp only [urgency_score]
  split
  · norm_num
  · exact le_max_left 0 _

/-- Urgency never exceeds one. -/
theorem urgency_score_le_one (text : Option (List Char)) :
    urgency_score text ≤ 1 := by
  simp only [urgency_score]
  split
  · norm_num
  · exact max_le (by norm_num) (min_le_left _ _)

/-- C4: `urgency_score` is the clamp to `[0,1]` of the sum of the
urgent-keyword component (`0.4` per matched keyword, uncapped), the
exclamation component (`min(0.2, 0.05·count)`) and the ALL-CAPS component
(`min(0.4, fraction)` when word tokens exist); empty or missing text gives
`0.0`; the result is always in `[0,1]`; and the acceptance example exceeds
`0.4`. -/
theorem C4_urgency_score_spec (t : List Char) :
    urgency_score none = 0 ∧
    urgency_score (some []) = 0 ∧
    urgency_score (some t) =
      max 0 (min 1
        ((2/5) * ((_URGENT_WORDS.filter (fun w => containsSub (lowerL t) w)).length : ℚ)
          + min (1/5) ((1/20) * ((t.filter (fun c => c = '!')).length : ℚ))
          + (if findWords t = [] then 0
             else min (2/5)
               ((((findWords t).filter pyIsUpper).length : ℚ) /
                 ((findWords t).length : ℚ))))) ∧
    (0 ≤ urgency_score (some t) ∧ urgency_score (some t) ≤ 1) ∧
    2/5 < urgency_score (some "This is urgent, please help me ASAP!!!".data) := by
  refine ⟨rfl, rfl, ?_, ⟨urgency_score_nonneg _, urgency_score_le_one _⟩,
    by with_unfolding_all decide⟩
  by_cases h : t = []
  · subst h
    with_unfolding_all decide
  · unfold urgency_score
    simp only [Option.getD_some]
    rw [if_neg h, urgentWordScore_eq]

/-- C8: every entry of the sentence-level breakdown carries exactly the
compound and label that `score_message` yields on that entry's sentence. -/
theorem C8_sentence_scores_consistency (scorer : List Char → Scores)
    (text : Option (List Char)) :
    ∀ e ∈ sentence_level_scores scorer text,
      e.compound = (score_message scorer (some e.sentence)).compound ∧
      e.label = (score_message scorer (some e.sentence)).label := by
  intro e he
  simp only [sentence_level_scores] at he
  split at he
  · cases he
  · rcases List.mem_map.1 he with ⟨s, _, rfl⟩
    exact ⟨rfl, rfl⟩

/-- Witness for C8: the first entry of the breakdown of `"A. B."` under the
all-zero scorer. -/
theorem C8_witness :
    ((⟨"A.".data, 0, Label.Neutral⟩ : SentRec) ∈
      sentence_level_scores zeroScorer (some "A. B.".data)) ∧
    (0 : ℚ) = (score_message zeroScorer (some "A.".data)).compound ∧
    Label.Neutral = (score_message zeroScorer (some "A.".data)).label := by
  have hm : (⟨"A.".data, 0, Label.Neutral⟩ : SentRec) ∈
      sentence_level_scores zeroScorer (some "A. B.".data) := by
    with_unfolding_all decide
  have h := C8_sentence_scores_consistency zeroScorer (some "A. B.".data) _ hm
  exact ⟨hm, h.1, h.2⟩

/-- Characterisation of the escalation scan with a pending streak of `c`
consecutive Negatives: it succeeds exactly when the remaining labels start
with enough Negatives to complete the streak, or contain a fresh full run
of `w` Negatives. -/
theorem escalationGo_iff (w : ℕ) :
    ∀ (labels : List Label) (c : ℕ), c < w →
      (escalationGo w labels c = true ↔
        (∃ k t, w ≤ k + c ∧
          labels = List.replicate k Label.Negative ++ t) ∨
        hasNegRun labels w) := by
  intro labels
  induction labels with
  | nil =>
    intro c hc
    simp only [escalationGo]
    constructor
    · intro h; cases h
    · rintro (⟨k, t, hk, he⟩ | ⟨l₁, l₂, he⟩)
      · rcases List.append_eq_nil.mp he.symm with ⟨h1, _⟩
        have hk0 : k = 0 := by simpa using congrArg List.length h1
        omega
      · rcases List.append_eq_nil.mp he.symm with ⟨h1, _⟩
        rcases List.append_eq_nil.mp h1 with ⟨_, h3⟩
        have hw0 : w = 0 := by simpa using congrArg List.length h3
        omega
  | cons lab rest ih =>
    intro c hc
    by_cases hlab : lab = Label.Negative
    · subst hlab
      have hstep : escalationGo w (Label.Negative :: rest) c =
          if w ≤ c + 1 then true else escalationGo w rest (c + 1) := by
        simp [escalationGo]
      rw [hstep]
      by_cases hw : w ≤ c + 1
      · rw [if_pos hw]
        exact iff_of_true rfl (Or.inl ⟨1, rest, by omega, by simp⟩)
      · rw [if_neg hw]
        have hc1 : c + 1 < w := by omega
        rw [ih (c + 1) hc1]
        constructor
        · rintro (⟨k, t, hk, he⟩ | ⟨l₁, l₂, he⟩)
          · exact Or.inl ⟨k + 1, t, by omega,
              by rw [List.replicate_succ, List.cons_append, he]⟩
          · exact Or.inr ⟨Label.Negative :: l₁, l₂,
              by rw [he]; simp only [List.cons_append, List.append_assoc]⟩
        · rintro (⟨k, t, hk, he⟩ | ⟨l₁, l₂, he⟩)
          · cases k with
            | zero => omega
            | succ k' =>
              rw [List.replicate_succ, List.cons_append] at he
              have he' : rest = List.replicate k' Label.Negative ++ t :=
                (List.cons_eq_cons.mp he).2
              exact Or.inl ⟨k', t, by omega, he'⟩
          · cases l₁ with
            | nil =>
              cases w with
              | zero => omega
              | succ w' =>
                rw [List.nil_append, List.replicate_succ, List.cons_append] at he
                exact Or.inl ⟨w', l₂, by omega, (List.cons_eq_cons.mp he).2⟩
            | cons x l₁' =>
              rw [List.cons_append, List.cons_append] at he
              exact Or.inr ⟨l₁', l₂, (List.cons_eq_cons.mp he).2⟩
    · have hstep : escalationGo w (lab :: rest) c = escalationGo w rest 0 := by
        simp [escalationGo, hlab]
      rw [hstep]
      have h0 : (0 : ℕ) < w := by omega
      rw [ih 0 h0]
      constructor
      · rintro (⟨k, t, hk, he⟩ | ⟨l₁, l₂, he⟩)
        · have hwk : w ≤ k := by omega
          have hrep : List.replicate k Label.Negative =
              List.replicate w Label.Negative ++
                List.replicate (k - w) Label.Negative := by
            rw [← List.replicate_add]
            congr 1
            omega
          refine Or.inr ⟨[lab], List.replicate (k - w) Label.Negative ++ t, ?_⟩
          rw [he, hrep]
          simp only [List.cons_append, List.nil_append, List.append_assoc]
        · exact Or.inr ⟨lab :: l₁, l₂,
            by rw [he]; simp only [List.cons_append, List.append_assoc]⟩
      · rintro (⟨k, t, hk, he⟩ | ⟨l₁, l₂, he⟩)
        · cases k with
          | zero => omega
          | succ k' =>
            rw [List.replicate_succ, List.cons_append] at he
            exact absurd (List.cons_eq_cons.mp he).1 hlab
        · cases l₁ with
          | nil =>
            cases w with
            | zero => omega
            | succ w' =>
              rw [List.nil_append, List.replicate_succ, List.cons_append] at he
              exact absurd (List.cons_eq_cons.mp he).1 hlab
          | cons x l₁' =>
            rw [List.cons_append, List.cons_append] at he
            exact Or.inr ⟨l₁', l₂, (List.cons_eq_cons.mp he).2⟩

/-- C2 (amended): for every window `w ≥ 1`, `detect_escalation` returns
true iff the list contains at least `w` consecutive Negative labels; the
two acceptance examples hold, and the empty list never escalates (for any
window).  The `w ≥ 1` bound is forced by the counterexample at `w = 0`. -/
theorem C2_detect_escalation_spec (labels : List Label) (w : ℕ) (hw : 1 ≤ w) :
    (detect_escalation labels w = true ↔ hasNegRun labels w) ∧
    detect_escalation
      [Label.Positive, Label.Negative, Label.Negative, Label.Negative] 3 = true ∧
    detect_escalation
      [Label.Negative, Label.Positive, Label.Negative, Label.Negative] 3 = false ∧
    (∀ w', detect_escalation [] w' = false) := by
  refine ⟨?_, by decide, by decide, fun w' => rfl⟩
  unfold detect_escalation
  rw [escalationGo_iff w labels 0 (by omega)]
  constructor
  · rintro (⟨k, t, hk, he⟩ | h)
    · have hwk : w ≤ k := by omega
      have hrep : List.replicate k Label.Negative =
          List.replicate w Label.Negative ++
            List.replicate (k - w) Label.Negative := by
        rw [← List.replicate_add]
        congr 1
        omega
      refine ⟨[], List.replicate (k - w) Label.Negative ++ t, ?_⟩
      rw [he, hrep]
      simp only [List.nil_append, List.append_assoc]
    · exact h
  · intro h
    exact Or.inr h

/-- Witness for C2 at the acceptance example and window `3`. -/
theorem C2_witness :
    detect_escalation
      [Label.Positive, Label.Negative, Label.Negative, Label.Negative] 3 = true ∧
    hasNegRun
      [Label.Positive, Label.Negative, Label.Negative, Label.Negative] 3 := by
  have h := C2_detect_escalation_spec
    [Label.Positive, Label.Negative, Label.Negative, Label.Negative] 3 (by omega)
  exact ⟨h.2.1, h.1.mp h.2.1⟩

/-- C2 counterexample: at window `0` the claimed equivalence fails — the
code returns `false` on `[Positive]`, yet the list trivially contains a run
of `0` consecutive Negatives. -/
theorem C2_counterexample :
    ¬ (detect_escalation [Label.Positive] 0 = true ↔
        hasNegRun [Label.Positive] 0) := by
  intro h
  have h2 : hasNegRun [Label.Positive] 0 := ⟨[], [Label.Positive], rfl⟩
  have h3 := h.mpr h2
  exact absurd h3 (by decide)

/-- The running-minimum fold returns the first element of `best :: l`
attaining the minimum compound: everything strictly before it is strictly
larger, everything after is at least as large. -/
theorem argminCompound_split :
    ∀ (l : List SentRec) (best : SentRec),
      ∃ l₁ l₂, best :: l = l₁ ++ argminCompound best l :: l₂ ∧
        (∀ y ∈ l₁, (argminCompound best l).compound < y.compound) ∧
        (∀ y ∈ l₂, (argminCompound best l).compound ≤ y.compound) := by
  intro l
  induction l with
  | nil =>
    intro best
    exact ⟨[], [], rfl, by simp, by simp⟩
  | cons x rest ih =>
    intro best
    by_cases hx : x.compound < best.compound
    · have harg : argminCompound best (x :: rest) = argminCompound x rest := by
        simp [argminCompound, hx]
      rw [harg]
      rcases ih x with ⟨l₁, l₂, heq, hlt, hle⟩
      have hrle : (argminCompound x rest).compound ≤ x.compound := by
        cases l₁ with
        | nil =>
          simp only [List.nil_append] at heq
          have h1 := (List.cons_eq_cons.mp heq).1
          rw [← h1]
        | cons z l₁' =>
          simp only [List.cons_append] at heq
          have h1 := (List.cons_eq_cons.mp heq).1
          have hz := hlt z (by simp)
          rw [← h1] at hz
          exact le_of_lt hz
      have hrlt : (argminCompound x rest).compound < best.compound :=
        lt_of_le_of_lt hrle hx
      refine ⟨best :: l₁, l₂, ?_, ?_, hle⟩
      · rw [List.cons_append, ← heq]
      · intro y hy
        rcases List.mem_cons.mp hy with hEq | hMem
        · rw [hEq]; exact hrlt
        · exact hlt y hMem
    · have harg : argminCompound best (x :: rest) = argminCompound best rest := by
        simp [argminCompound, hx]
      rw [harg]
      rcases ih best with ⟨l₁, l₂, heq, hlt, hle⟩
      cases l₁ with
      | nil =>
        simp only [List.nil_append] at heq
        have h1 := (List.cons_eq_cons.mp heq).1
        have h2 := (List.cons_eq_cons.mp heq).2
        refine ⟨[], x :: rest, ?_, by simp, ?_⟩
        · simp only [List.nil_append]
          rw [← h1]
        · intro y hy
          rcases List.mem_cons.mp hy with hEq | hMem
          · rw [hEq, ← h1]
            exact le_of_not_lt hx
          · exact hle y (h2 ▸ hMem)
      | cons z l₁' =>
        simp only [List.cons_append] at heq
        have h1 := (List.cons_eq_cons.mp heq).1
        have h2 := (List.cons_eq_cons.mp heq).2
        have hrb : (argminCompound best rest).compound < best.compound := by
          have hz := hlt z (by simp)
          rw [← h1] at hz
          exact hz
        refine ⟨best :: x :: l₁', l₂, ?_, ?_, hle⟩
        · simp only [List.cons_append]
          conv_lhs => rw [h2]
        · intro y hy
          rcases List.mem_cons.mp hy with hEq | hy2
          · rw [hEq]; exact hrb
          · rcases List.mem_cons.mp hy2 with hEq2 | hy3
            · rw [hEq2]
              exact lt_of_lt_of_le hrb (le_of_not_lt hx)
            · exact hlt y (by simp [hy3])

/-- C7: `worst_sentence` returns the synthetic empty/Neutral record when the
breakdown is empty (in particular on empty or missing text), and otherwise
an entry of the breakdown of minimal compound, ties broken by first
occurrence: the entries before it are strictly larger and the ones after it
at least as large. -/
theorem C7_worst_sentence_spec (scorer : List Char → Scores)
    (text : Option (List Char)) :
    (sentence_level_scores scorer text = [] →
      worst_sentence scorer text = ⟨[], 0, Label.Neutral⟩) ∧
    worst_sentence scorer none = ⟨[], 0, Label.Neutral⟩ ∧
    worst_sentence scorer (some []) = ⟨[], 0, Label.Neutral⟩ ∧
    (sentence_level_scores scorer text ≠ [] →
      ∃ l₁ l₂,
        sentence_level_scores scorer text =
          l₁ ++ worst_sentence scorer text :: l₂ ∧
        (∀ y ∈ l₁, (worst_sentence scorer text).compound < y.compound) ∧
        (∀ y ∈ l₂, (worst_sentence scorer text).compound ≤ y.compound)) := by
  refine ⟨?_, rfl, rfl, ?_⟩
  · intro h
    unfold worst_sentence
    rw [h]
  · intro h
    rcases hs : sentence_level_scores scorer text with _ | ⟨s, rest⟩
    · exact absurd hs h
    · have hw : worst_sentence scorer text = argminCompound s rest := by
        unfold worst_sentence
        rw [hs]
      rw [hw]
      exact argminCompound_split rest s

/-- Witness for C7: the all-zero scorer on missing text (empty breakdown)
and on `"A. B."` (two sentences, tie on compound broken by the first). -/
theorem C7_witness :
    worst_sentence zeroScorer none = ⟨[], 0, Label.Neutral⟩ ∧
    (∃ l₁ l₂,
      sentence_level_scores zeroScorer (some "A. B.".data) =
        l₁ ++ worst_sentence zeroScorer (some "A. B.".data) :: l₂ ∧
      (∀ y ∈ l₁,
        (worst_sentence zeroScorer (some "A. B.".data)).compound < y.compound) ∧
      (∀ y ∈ l₂,
        (worst_sentence zeroScorer (some "A. B.".data)).compound ≤ y.compound)) := by
  constructor
  · exact (C7_worst_sentence_spec zeroScorer none).1 rfl
  · exact (C7_worst_sentence_spec zeroScorer (some "A. B.".data)).2.2.2
      (by with_unfolding_all decide)

/-- Inserting a message into a list, ordered by score, preserves the
subsequence of messages holding any given score `q` (the insertion point is
before the first element of score `≥ a.score`, hence before every equal
element). -/
theorem filter_orderedInsert (q : ℚ) (a : Msg) (l : List Msg) :
    (List.orderedInsert scoreLE a l).filter (fun m => m.score = q) =
      if a.score = q then a :: l.filter (fun m => m.score = q)
      else l.filter (fun m => m.score = q) := by
  induction l with
  | nil =>
    by_cases ha : a.score = q <;> simp [List.orderedInsert, ha]
  | cons b l ih =>
    simp only [List.orderedInsert]
    by_cases hab : scoreLE a b
    · rw [if_pos hab]
      by_cases ha : a.score = q <;> simp [List.filter_cons, ha]
    · rw [if_neg hab]
      by_cases hb : b.score = q
      · have ha : ¬ a.score = q := by
          intro ha
          exact hab (le_of_eq (ha.trans hb.symm))
        simp [List.filter_cons, hb, ha, ih]
      · by_cases ha : a.score = q <;> simp [List.filter_cons, hb, ha, ih]

/-- Stability of the score-ordered insertion sort: for every score value
the subsequence of messages holding that score is unchanged. -/
theorem filter_insertionSort (q : ℚ) (l : List Msg) :
    (List.insertionSort scoreLE l).filter (fun m => m.score = q) =
      l.filter (fun m => m.score = q) := by
  induction l with
  | nil => rfl
  | cons a l ih =>
    simp only [List.insertionSort]
    rw [filter_orderedInsert]
    by_cases ha : a.score = q <;> simp [ha, ih, List.filter_cons]

/-- C6: `top_negative_messages` keeps exactly the user-role messages,
sorts them ascending by score with a stable sort (per score value the
original subsequence is preserved), returns the first `top_k`, and on user
scores `[0.5, -0.9, -0.2, -0.9]` with `top_k = 2` returns the two `-0.9`
messages in original order. -/
theorem C6_top_negative_messages_spec (conv : List Msg) (k : ℕ) :
    (∀ m ∈ top_negative_messages conv k,
      m.role = "user".data ∧ m ∈ conv) ∧
    top_negative_messages conv k =
      (top_negative_messages conv
        (conv.filter (fun m => m.role = "user".data)).length).take k ∧
    List.Perm
      (top_negative_messages conv
        (conv.filter (fun m => m.role = "user".data)).length)
      (conv.filter (fun m => m.role = "user".data)) ∧
    List.Sorted scoreLE
      (top_negative_messages conv
        (conv.filter (fun m => m.role = "user".data)).length) ∧
    (∀ q : ℚ,
      (top_negative_messages conv
        (conv.filter (fun m => m.role = "user".data)).length).filter
          (fun m => m.score = q) =
        (conv.filter (fun m => m.role = "user".data)).filter
          (fun m => m.score = q)) ∧
    top_negative_messages [exMsgA, exMsgB, exMsgC, exMsgD] 2 =
      [exMsgB, exMsgD] := by
  have hfull : top_negative_messages conv
      (conv.filter (fun m => m.role = "user".data)).length =
      List.insertionSort scoreLE
        (conv.filter (fun m => m.role = "user".data)) := by
    unfold top_negative_messages
    exact List.take_of_length_le
      (le_of_eq (List.perm_insertionSort scoreLE _).length_eq)
  refine ⟨?_, ?_, ?_, ?_, ?_, by with_unfolding_all decide⟩
  · intro m hm
    unfold top_negative_messages at hm
    have hm2 : m ∈ List.insertionSort scoreLE
        (conv.filter (fun m => m.role = "user".data)) :=
      List.take_subset _ _ hm
    have hm3 := (List.mem_insertionSort scoreLE).mp hm2
    rcases List.mem_filter.mp hm3 with ⟨hmem, hrole⟩
    exact ⟨by simpa using hrole, hmem⟩
  · rw [hfull]
    rfl
  · rw [hfull]
    exact List.perm_insertionSort scoreLE _
  · rw [hfull]
    exact List.sorted_insertionSort scoreLE _
  · intro q
    rw [hfull]
    exact filter_insertionSort q _

/-- Witness for C6: membership of the first `-0.9` message in the returned
top-2 list, with its role and conversation membership read off the
theorem. -/
theorem C6_witness :
    exMsgB ∈ top_negative_messages [exMsgA, exMsgB, exMsgC, exMsgD] 2 ∧
    exMsgB.role = "user".data ∧
    exMsgB ∈ [exMsgA, exMsgB, exMsgC, exMsgD] := by
  have hm : exMsgB ∈ top_negative_messages [exMsgA, exMsgB, exMsgC, exMsgD] 2 := by
    with_unfolding_all decide
  have h := (C6_top_negative_messages_spec [exMsgA, exMsgB, exMsgC, exMsgD] 2).1
    exMsgB hm
  exact ⟨hm, h.1, h.2⟩

set_option maxRecDepth 8192 in
/-- C9: the report is pure formatting of the aggregator outputs — it equals
the fixed-structure text built from the total message count, the user
message count, the `conversation_overall` result of the user scores, and
`top_negative_messages` with `top_k = 3`; the empty conversation yields the
placeholder report, and a one-user-message conversation yields the ranked
block with 3-decimal scores. -/
theorem C9_generate_text_report_spec (conv : List Msg) :
    generate_text_report conv =
      reportFromParts conv.length
        (conv.filter (fun m => m.role = "user".data)).length
        (conversation_overall
          ((conv.filter (fun m => m.role = "user".data)).map (fun m => m.score)))
        (top_negative_messages conv 3) ∧
    generate_text_report [] =
      ("Conversation Summary\n====================\nTotal messages: 0\nUser messages: 0\nOverall sentiment: Neutral (average compound = 0.000)\n\nNo user messages to highlight.").data ∧
    generate_text_report [exMsgB] =
      ("Conversation Summary\n====================\nTotal messages: 1\nUser messages: 1\nOverall sentiment: Negative (average compound = -0.900)\n\nTop negative user messages:\n1. \x22msg b\x22 (score = -0.900)").data := by
  exact ⟨rfl, by with_unfolding_all decide, by with_unfolding_all decide⟩

/-- Sandwich and error bounds for half-even rounding: the result lies
between floor and ceiling and within `1/2` of the argument. -/
theorem halfEvenRound_bounds (q : ℚ) :
    (⌊q⌋ ≤ halfEvenRound q ∧ halfEvenRound q ≤ ⌈q⌉) ∧
    |(halfEvenRound q : ℚ) - q| ≤ 1/2 := by
  unfold halfEvenRound
  have h1 : (⌊q⌋ : ℚ) ≤ q := Int.floor_le q
  have h2 : q < ⌊q⌋ + 1 := Int.lt_floor_add_one q
  by_cases hr : q - ⌊q⌋ < 1/2
  · rw [if_pos hr]
    exact ⟨⟨le_refl _, Int.floor_le_ceil q⟩, by rw [abs_le]; constructor <;> linarith⟩
  · have hge : 1/2 ≤ q - ⌊q⌋ := not_lt.mp hr
    have hceil : ⌈q⌉ = ⌊q⌋ + 1 := by
      have hq : (⌊q⌋ : ℚ) < q := by linarith
      refine le_antisymm (Int.ceil_le.mpr (le_of_lt (by exact_mod_cast h2))) ?_
      have hlt : ⌊q⌋ < ⌈q⌉ := by
        rw [Int.lt_ceil]
        exact hq
      omega
    rw [if_neg hr]
    by_cases hr2 : 1/2 < q - ⌊q⌋
    · rw [if_pos hr2]
      refine ⟨⟨by omega, by omega⟩, ?_⟩
      rw [abs_le]
      push_cast
      constructor <;> linarith
    · rw [if_neg hr2]
      have hhalf : q - ⌊q⌋ = 1/2 := le_antisymm (not_lt.mp hr2) hge
      by_cases he : ⌊q⌋ % 2 = 0
      · rw [if_pos he]
        refine ⟨⟨le_refl _, by omega⟩, ?_⟩
        rw [abs_le]
        constructor <;> linarith
      · rw [if_neg he]
        refine ⟨⟨by omega, by omega⟩, ?_⟩
        rw [abs_le]
        push_cast
        constructor <;> linarith

/-- Two-decimal rounding of a value in `[0,1]`: at most `1/200` away and
still in `[0,1]`. -/
theorem round2_props (q : ℚ) (h0 : 0 ≤ q) (h1 : q ≤ 1) :
    |round2 q - q| ≤ 1/200 ∧ 0 ≤ round2 q ∧ round2 q ≤ 1 := by
  have hb := halfEvenRound_bounds (q * 100)
  have hfl : (0 : ℤ) ≤ ⌊q * 100⌋ := Int.floor_nonneg.mpr (by linarith)
  have hcl : ⌈q * 100⌉ ≤ (100 : ℤ) := Int.ceil_le.mpr (by push_cast; linarith)
  have hlo : (0 : ℤ) ≤ halfEvenRound (q * 100) := le_trans hfl hb.1.1
  have hhi : halfEvenRound (q * 100) ≤ (100 : ℤ) := le_trans hb.1.2 hcl
  have habs := hb.2
  rw [abs_le] at habs
  unfold round2
  refine ⟨?_, ?_, ?_⟩
  · rw [abs_le]
    have hloq : (0 : ℚ) ≤ (halfEvenRound (q * 100) : ℚ) := by exact_mod_cast hlo
    constructor <;> linarith
  · have hloq : (0 : ℚ) ≤ (halfEvenRound (q * 100) : ℚ) := by exact_mod_cast hlo
    positivity
  · have hhiq : (halfEvenRound (q * 100) : ℚ) ≤ 100 := by exact_mod_cast hhi
    rw [div_le_one (by norm_num)]
    exact hhiq

/-- C10: a user-role message built by `make_message` stores
`round(urgency_score(text), 2)` — the two-decimal half-even rounding of the
§4.3 value, within `1/200 = 0.005` of it and still in `[0,1]`; the bound is
attained at the text `"A b c d e f g h"`, whose raw urgency `0.125` is
stored as `0.12`. -/
theorem C10_make_message_urgency (scorer : List Char → Scores)
    (idStr ts text : List Char) (score : ℚ) (label : Label) :
    (make_message scorer idStr ts "user".data text score label).urgency =
      round2 (urgency_score (some text)) ∧
    |(make_message scorer idStr ts "user".data text score label).urgency -
      urgency_score (some text)| ≤ 1/200 ∧
    0 ≤ (make_message scorer idStr ts "user".data text score label).urgency ∧
    (make_message scorer idStr ts "user".data text score label).urgency ≤ 1 ∧
    (make_message zeroScorer [] [] "user".data "A b c d e f g h".data 0
      Label.Neutral).urgency = 3/25 ∧
    urgency_score (some "A b c d e f g h".data) = 1/8 := by
  have hu : (make_message scorer idStr ts "user".data text score label).urgency =
      round2 (urgency_score (some text)) := by
    unfold make_message
    rw [if_pos rfl]
  have hr := round2_props (urgency_score (some text))
    (urgency_score_nonneg _) (urgency_score_le_one _)
  refine ⟨hu, ?_, ?_, ?_, by with_unfolding_all decide,
    by with_unfolding_all decide⟩
  · rw [hu]
    exact hr.1
  · rw [hu]
    exact hr.2.1
  · rw [hu]
    exact hr.2.2
